import Mathlib

/-!
Verification of the agent execution engine of the code-review agent
repository.  The Lean definitions below are shallow embeddings of the
Python sources:

* `AgentExecutor` / `AgentExecutor.execute` — src/agent/core/base/executor.py
* `MemoryManager` — src/agent/core/base/memory.py
* `ToolCallAgent` (tool validation, `act`, `think`) — src/agent/core/toolCall.py
* `ReActAgent.step` — src/agent/core/react.py
* `BaseAgent.run` — src/agent/core/base/base.py
* `MCPClient.disconnect_all` — src/agent/mcpHub/client.py
* `Reviewer._review_large_changes` — src/agent/custom/reviewer.py

Async generators are modelled as the sequence of values they yield,
followed by an optional raised exception; coroutine state mutation is
modelled by explicit state passing.
-/

set_option maxRecDepth 4000

/-! ## Agent state and step results (src/agent/core/base/types.py) -/

/-- `AgentState` from types.py: READY / RUNNING / ERROR / STOPPED. -/
inductive AgentState
  | ready
  | running
  | error
  | stopped
deriving DecidableEq, Repr

/-- `StepResult` from types.py.  `output` is `Option` because the executor
checks `result.output is None` and raises a `ValueError` when it is.
The context fed to a step is either a plain string or a message list, so it
is kept as a type parameter `Ctx`. -/
structure StepResult (Ctx : Type) where
  output : Option String
  next_input : Option Ctx
  is_finished : Bool
  final_answer : Option String
deriving DecidableEq, Repr

/-- Exceptions that can surface inside `AgentExecutor.execute`:
the executor's own `ValueError` for a missing `output` field, the
`asyncio.timeout` cancellation, or an arbitrary exception raised by the
step generator (carrying its message).  The `isinstance(result, StepResult)`
`TypeError` cannot arise in the typed embedding. -/
inductive StepExn
  | valueErr
  | timeoutErr
  | genExn (msg : String)
deriving DecidableEq, Repr

/-- One call of the step generator: the `StepResult`s it yields, an optional
exception raised after the last yielded result (which also models a per-step
timeout), and the agent state (e.g. memory) after the call.  A step function
receives the context, the current value of `_step_count` (the Python
generator closure reads `self.executor._step_count`) and the mutable agent
state. -/
structure StepGen (Ctx σ : Type) where
  results : List (StepResult Ctx)
  raised : Option StepExn
  st : σ
deriving Repr

/-- Outcome of consuming the results yielded by one step, mirroring the
inner `async for` loop of `AgentExecutor.execute` (executor.py lines
35-54): a finishing result returns from `execute`; a missing `output`
raises; otherwise the (possibly replaced) context is carried to the next
iteration. -/
inductive InnerOut (Ctx : Type)
  | finished
  | raised (e : StepExn)
  | cont (ctx : Ctx)

/-- The body of the inner `async for result in step_func(context)` loop of
`AgentExecutor.execute`: validates each result, emits `result.output`,
emits the final-answer marker when a finishing result carries one, and
threads `result.next_input` into the context. -/
def processResults {Ctx : Type} : List (StepResult Ctx) → Ctx → List String × InnerOut Ctx
  | [], ctx => ([], .cont ctx)
  | r :: rs, ctx =>
    match r.output with
    | none => ([], .raised .valueErr)
    | some out =>
      if r.is_finished then
        match r.final_answer with
        | some fa => ([out, "\n=== 任务完成 ===\n" ++ fa ++ "\n"], .finished)
        | none => ([out], .finished)
      else
        match r.next_input with
        | some c2 =>
          let pr := processResults rs c2
          (out :: pr.1, pr.2)
        | none =>
          let pr := processResults rs ctx
          (out :: pr.1, pr.2)

/-- How the outer `while` loop of `execute` ended: a finishing step result,
exhaustion of the step budget (`step_count` reached `max_steps`), or an
exception. -/
inductive LoopOut
  | finished
  | exhausted
  | raised (e : StepExn)
deriving DecidableEq, Repr

/-- Result of the outer loop: outputs yielded so far, the number of
iterations performed (= calls of the step function), the value of
`_step_count` when the loop ended, the threaded agent state, and how the
loop ended. -/
structure LoopRes (Ctx σ : Type) where
  outputs : List String
  calls : Nat
  stepCount : Nat
  st : σ
  out : LoopOut

/-- The `while self._step_count < self.max_steps` loop of
`AgentExecutor.execute` (executor.py lines 31-54), written as structural
recursion on the remaining budget `fuel = max_steps - step_count`; `sc` is
the current `_step_count`.  Each iteration increments `_step_count`, runs
the step function once, streams its outputs, and either returns (finishing
result resets `_step_count` to 0), propagates an exception, or continues
with the next context. -/
def execLoop {Ctx σ : Type} (f : Ctx → Nat → σ → StepGen Ctx σ) :
    Nat → Nat → Ctx → σ → LoopRes Ctx σ
  | 0, sc, _, s => ⟨[], 0, sc, s, .exhausted⟩
  | fuel + 1, sc, ctx, s =>
    let g := f ctx (sc + 1) s
    let pr := processResults g.results ctx
    match pr.2 with
    | .finished => ⟨pr.1, 1, 0, g.st, .finished⟩
    | .raised e => ⟨pr.1, 1, sc + 1, g.st, .raised e⟩
    | .cont ctx2 =>
      match g.raised with
      | some e => ⟨pr.1, 1, sc + 1, g.st, .raised e⟩
      | none =>
        let r := execLoop f fuel (sc + 1) ctx2 g.st
        ⟨pr.1 ++ r.outputs, 1 + r.calls, r.stepCount, r.st, r.out⟩

/-- `AgentExecutor` (executor.py): configuration plus the mutable fields
`_step_count` and `_state`.  `step_timeout` is a float used only inside
`asyncio.timeout`; a timeout is modelled as a `StepExn.timeoutErr` raised
by the step generator, so the numeric value plays no role. -/
structure AgentExecutor where
  max_steps : Nat
  step_count : Nat
  state : AgentState
deriving DecidableEq, Repr

/-- Outcome of a call of `execute`: normal completion of the generator, the
invalid-state `RuntimeError` raised before the `try` block, or a re-raised
exception from inside the loop. -/
inductive ExecOut
  | ok
  | invalidState
  | raised (e : StepExn)
deriving DecidableEq, Repr

/-- Result of fully consuming the `execute` generator. -/
structure ExecRes (σ : Type) where
  outputs : List String
  exec : AgentExecutor
  st : σ
  out : ExecOut

/-- `AgentExecutor._get_max_steps_error` (executor.py lines 65-72). -/
def maxStepsMsg (ms : Nat) : String :=
  "\n[错误] 任务执行步骤超过最大限制 (" ++ toString ms ++ " 步)，建议:\n" ++
  "1. 尝试将问题拆分为更小的部分\n" ++
  "2. 使用更明确的指令\n" ++
  "3. 如果确实需要更多步骤，可以调整 max_steps 参数\n"

/-- `AgentExecutor.execute` (executor.py lines 16-63).  If the state is
neither RUNNING nor READY the invalid-state `RuntimeError` is raised
before the `try` block, leaving the executor unchanged.  Otherwise the
state becomes RUNNING, `_step_count` is reset to 0 and the loop runs; on
loop exhaustion with `_step_count >= max_steps` the step-limit guidance
message is emitted and `_step_count` reset to 0; any exception sets the
state to ERROR and re-raises. -/
def AgentExecutor.execute {Ctx σ : Type} (ag : AgentExecutor)
    (f : Ctx → Nat → σ → StepGen Ctx σ) (ctx : Ctx) (s : σ) : ExecRes σ :=
  if ag.state = .running ∨ ag.state = .ready then
    let r := execLoop f ag.max_steps 0 ctx s
    match r.out with
    | .finished => ⟨r.outputs, ⟨ag.max_steps, r.stepCount, .running⟩, r.st, .ok⟩
    | .exhausted =>
      if ag.max_steps ≤ r.stepCount then
        ⟨r.outputs ++ [maxStepsMsg ag.max_steps], ⟨ag.max_steps, 0, .running⟩, r.st, .ok⟩
      else
        ⟨r.outputs, ⟨ag.max_steps, r.stepCount, .running⟩, r.st, .ok⟩
    | .raised e => ⟨r.outputs, ⟨ag.max_steps, r.stepCount, .error⟩, r.st, .raised e⟩
  else
    ⟨[], ag, s, .invalidState⟩

/-- A step function that yields nothing and raises nothing: the loop always
runs out of steps.  Used only in witnesses. -/
def stepNothing : String → Nat → Unit → StepGen String Unit :=
  fun _ _ _ => ⟨[], none, ()⟩

/-- A step function that immediately yields a finishing result with output
"hi" and no final answer.  Used only in witnesses. -/
def stepFinish : String → Nat → Unit → StepGen String Unit :=
  fun _ _ _ => ⟨[⟨some "hi", none, true, none⟩], none, ()⟩

/-! ## Memory manager (src/agent/core/base/memory.py) -/

/-- `AgentMemory` from types.py.  `content` is `Any` in Python, so it is a
type parameter; `timestamp` (`time.time()`) is an externally supplied
clock value. -/
structure AgentMemory (α : Type) where
  id : String
  type : String
  content : α
  timestamp : Nat
  metadata : List (String × String)
deriving DecidableEq, Repr

/-- The Python slice `l[-k:]`: for `k = 0` the start index `-0` is `0`, so
the whole list is returned; otherwise the last `k` elements (all of them
when `k ≥ len(l)`). -/
def pyTailSlice {α : Type} (k : Nat) (l : List α) : List α :=
  if k = 0 then l else l.drop (l.length - k)

/-- `MemoryManager` (memory.py): a capacity bound plus the entry list. -/
structure MemoryManager (α : Type) where
  memory_limit : Nat
  _memory : List (AgentMemory α)
deriving DecidableEq, Repr

/-- A fresh `MemoryManager` as built by `__init__`. -/
def MemoryManager.mk0 (α : Type) (limit : Nat) : MemoryManager α := ⟨limit, []⟩

/-- The entry built by `remember` before appending: its id is
`"mem_" + str(len(self._memory))`, computed from the current length. -/
def MemoryManager.mkEntry {α : Type} (m : MemoryManager α) (now : Nat) (content : α)
    (type : String) (metadata : Option (List (String × String))) : AgentMemory α :=
  ⟨"mem_" ++ toString m._memory.length, type, content, now, metadata.getD []⟩

/-- `MemoryManager._trim_memory` (memory.py lines 44-47): when the list
exceeds the limit, keep `self._memory[-self.memory_limit:]`. -/
def trim_memory {α : Type} (limit : Nat) (l : List (AgentMemory α)) : List (AgentMemory α) :=
  if limit < l.length then pyTailSlice limit l else l

/-- `MemoryManager.remember` (memory.py lines 11-24): build the entry,
append it, trim, and return the entry id.  `metadata or {}` maps `None`
to the empty map. -/
def MemoryManager.remember {α : Type} (m : MemoryManager α) (now : Nat) (content : α)
    (type : String) (metadata : Option (List (String × String))) :
    String × MemoryManager α :=
  let memory := m.mkEntry now content type metadata
  (memory.id, ⟨m.memory_limit, trim_memory m.memory_limit (m._memory ++ [memory])⟩)

/-- `MemoryManager.recall` (memory.py lines 26-42).  The guards are Python
truthiness tests: `if memory_id:` skips the filter for `None` and for the
empty string, and `if limit:` skips the slice for `None` and for `0`. -/
def MemoryManager.recall {α : Type} (m : MemoryManager α) (memory_id : Option String)
    (type : Option String) (limit : Option Nat) : List (AgentMemory α) :=
  let ms := m._memory
  let ms := match memory_id with
    | some s => if s = "" then ms else ms.filter (fun e => decide (e.id = s))
    | none => ms
  let ms := match type with
    | some t => if t = "" then ms else ms.filter (fun e => decide (e.type = t))
    | none => ms
  match limit with
  | some k => if k = 0 then ms else pyTailSlice k ms
  | none => ms

/-- `MemoryManager.clear` (memory.py lines 49-51). -/
def MemoryManager.clear {α : Type} (m : MemoryManager α) : MemoryManager α :=
  ⟨m.memory_limit, []⟩

/-- A mutation of the store: one `remember` call (with its clock value and
arguments) or one `clear` call. -/
inductive MemOp (α : Type)
  | rem (now : Nat) (content : α) (type : String) (metadata : Option (List (String × String)))
  | clear

/-- Run a sequence of mutations, also keeping a ghost log of every entry
created since the last `clear` (in creation order), to state what
"the most-recently-added entries" means. -/
def runMemOps {α : Type} (m : MemoryManager α) (log : List (AgentMemory α)) :
    List (MemOp α) → MemoryManager α × List (AgentMemory α)
  | [] => (m, log)
  | .rem now c ty meta :: rest =>
    runMemOps (m.remember now c ty meta).2 (log ++ [m.mkEntry now c ty meta]) rest
  | .clear :: rest => runMemOps m.clear [] rest

/-- Run a sequence of `remember` calls (arguments: clock, content, type),
collecting the returned ids in order. -/
def runRemembers {α : Type} (m : MemoryManager α) :
    List (Nat × α × String) → List String × MemoryManager α
  | [] => ([], m)
  | (now, c, ty) :: rest =>
    let r := m.remember now c ty none
    let rr := runRemembers r.2 rest
    (r.1 :: rr.1, rr.2)

/-- A concrete store with two entries, used only to exhibit the behaviour
of `recall` at `limit = 0`. -/
def cexMem : MemoryManager Nat :=
  (((MemoryManager.mk0 Nat 5).remember 0 10 "default" none).2.remember 1 11 "default" none).2

/-! ## Tool registry and invoker (src/agent/core/toolCall.py) -/

/-! JSON-like parameter values, as found in a tool's parameter schema.
Dicts and lists are separate mutual inductives so that the `$ref` walk can
be defined by plain structural recursion. -/
mutual
inductive JVal
  | str (s : String)
  | num (n : Int)
  | jbool (b : Bool)
  | null
  | obj (fields : JFields)
  | arr (items : JItems)

inductive JFields
  | nil
  | cons (key : String) (val : JVal) (rest : JFields)

inductive JItems
  | nil
  | cons (item : JVal) (rest : JItems)
end

/-- Python `'$ref' in value`: membership among the keys of one dict. -/
def hasKeyRef : JFields → Bool
  | .nil => false
  | .cons k _ rest => k == "$ref" || hasKeyRef rest

/-! `check_ref_in_params` from `ToolCallAgent._validate_tool` (toolCall.py
lines 154-170): for each key/value pair, a dict value is rejected when it
contains a `$ref` key or, recursively, deeper inside; a list value has its
dict items checked recursively; all other values pass.  Note that the walk
never looks at the keys of the dict it was *called on*, only at the keys
of nested dict values. -/
mutual
def check_ref_in_params : JFields → Bool
  | .nil => true
  | .cons _ v rest => checkRefValue v && check_ref_in_params rest

def checkRefValue : JVal → Bool
  | .obj fields => !(hasKeyRef fields) && check_ref_in_params fields
  | .arr items => checkRefList items
  | _ => true

def checkRefList : JItems → Bool
  | .nil => true
  | .cons it rest =>
    (match it with
     | .obj fs => check_ref_in_params fs
     | _ => true) && checkRefList rest
end

/-! Spec-side predicate (from the spec's words, for comparison with the
code): the schema contains a `$ref` key *at any depth*, including at the
top level, recursively through nested maps and sequences of maps. -/
mutual
def specRefFields : JFields → Bool
  | .nil => false
  | .cons k v rest => k == "$ref" || specRefValue v || specRefFields rest

def specRefValue : JVal → Bool
  | .obj fields => specRefFields fields
  | .arr items => specRefItems items
  | _ => false

def specRefItems : JItems → Bool
  | .nil => false
  | .cons it rest => specRefValue it || specRefItems rest
end

/-- `Tool` (toolCall.py lines 13-19).  The handler may raise: this is
modelled by `Except`, the error carrying `str(e)`. -/
structure Tool where
  name : String
  description : String
  parameters : JFields
  func : JFields → Except String JVal

/-- `ToolCallAgent._validate_tool` (toolCall.py lines 142-176): an empty
parameter dict is accepted outright (`if not tool.parameters`); otherwise
the recursive `$ref` walk decides.  The body is pure, so the
`except`-returns-False path cannot trigger. -/
def validate_tool (tool : Tool) : Bool :=
  match tool.parameters with
  | .nil => true
  | fs => check_ref_in_params fs

/-- The registration filter of `ToolCallAgent.__init__` (toolCall.py lines
39-46): tools failing validation are silently dropped; the survivors form
`self.tools`. -/
def valid_tools (tools : List Tool) : List Tool :=
  tools.filter (fun t => validate_tool t)

/-- Lookup in the dict `{tool.name: tool for tool in valid_tools}`: the
last tool with a given name wins, as in Python dict construction. -/
def dictLookup (tools : List Tool) (name : String) : Option Tool :=
  tools.reverse.find? (fun t => t.name == name)

/-- `Action` (react.py lines 20-27).  `parameters` is `Option` because
`act` defends with `action.parameters or {}`. -/
structure AgentAction where
  id : String
  name : String
  parameters : Option JFields
  description : String
  priority : Int

/-- `ActionResult` (react.py lines 29-34). -/
structure ActionResult where
  success : Bool
  result : Option JVal
  error : Option String

/-- `ToolCallAgent.act` (toolCall.py lines 92-115): total — an unknown
tool name gives a failure result naming the tool, and a raising handler is
caught and converted into a failure result carrying the message. -/
def act (tools : List Tool) (action : AgentAction) : ActionResult :=
  let tool_name := action.name
  let parameters := action.parameters.getD .nil
  match dictLookup tools tool_name with
  | none => ⟨false, none, some ("未知工具: " ++ tool_name)⟩
  | some tool =>
    match tool.func parameters with
    | .ok v => ⟨true, some v, none⟩
    | .error e => ⟨false, none, some ("工具调用失败: " ++ e)⟩

/-- The tool-call request dict carried by an LLM response
(`response.tool_call`, read by `_format_next_action` via
`get("toolUseId") / get("name") / get("parameters", {})`). -/
structure ToolCallReq where
  toolUseId : String
  name : String
  parameters : JFields

/-- The dict built by `ToolCallAgent._format_next_action` (toolCall.py
lines 178-194): `None` for an unknown tool, otherwise
`{id, name, description, parameters}`. -/
structure NextActionDict where
  id : String
  name : String
  description : String
  parameters : JFields

/-- `ToolCallAgent._format_next_action` (toolCall.py lines 178-194). -/
def format_next_action (tools : List Tool) (tc : ToolCallReq) : Option NextActionDict :=
  match dictLookup tools tc.name with
  | none => none
  | some tool => some ⟨tc.toolUseId, tool.name, tool.description, tc.parameters⟩

/-- A schema whose only key is a top-level `$ref`. -/
def topRefSchema : JFields := .cons "$ref" (.str "#/definitions/x") .nil

/-- A tool with `topRefSchema` as its parameter schema. -/
def topRefTool : Tool := ⟨"badtool", "tool with a top-level ref key", topRefSchema, fun _ => .ok .null⟩

/-- A tool whose schema nests a `$ref` inside a dict value: the walk
rejects it. -/
def nestedRefTool : Tool :=
  ⟨"nested", "tool with a nested ref key",
    .cons "param" (.obj (.cons "$ref" (.str "#/definitions/x") .nil)) .nil,
    fun _ => .ok .null⟩

/-- A tool with a harmless schema. -/
def okTool : Tool :=
  ⟨"good", "tool with a self-contained schema",
    .cons "type" (.str "object") (.cons "properties" (.obj .nil) .nil),
    fun _ => .ok .null⟩

/-- A tool whose handler always raises. -/
def failTool : Tool := ⟨"boom", "always raises", .nil, fun _ => .error "kaput"⟩

/-! ## ReAct step, think, and run (src/agent/core/react.py, toolCall.py, base/base.py) -/

/-- A chat message as built by `ReActAgent._build_messages` (react.py lines
133-156). -/
structure Message where
  role : String
  content : Option String
  function_call : Option String
  function_call_id : Option String

/-- The context threaded through steps: `str | List[Message]`. -/
inductive AgentContext
  | text (s : String)
  | messages (ms : List Message)

/-- One streamed response from `self.config.llm.generate` as consumed by
`ToolCallAgent.think` (toolCall.py lines 62-84). -/
structure LLMResponse where
  text : String
  stop_reason : String
  tool_call : Option ToolCallReq

/-- `Thought` (react.py lines 12-18).  The `metadata` field is never set
on the paths modelled here and is omitted. -/
structure Thought where
  content : String
  next_action : Option NextActionDict
  finished : Bool

/-- `ToolCallAgent.think` (toolCall.py lines 57-90) on the list of
responses the model stream yields: a `tool_use` response with a tool call
yields a `Thought` carrying `_format_next_action`'s dict; an `end_turn`
response yields a finished `Thought`; *every* response additionally yields
a plain `Thought` (the three `if`s are not exclusive).  The model stream
is assumed not to raise (the `except` branch is not exercised by the
claims). -/
def ToolCallAgent.think (tools : List Tool) (responses : List LLMResponse) : List Thought :=
  responses.flatMap fun r =>
    (if r.stop_reason == "tool_use" then
      match r.tool_call with
      | some tc => [⟨r.text, format_next_action tools tc, false⟩]
      | none => []
    else []) ++
    (if r.stop_reason == "end_turn" then [⟨r.text, none, true⟩] else []) ++
    [⟨r.text, none, false⟩]

/-- Memory payloads stored by `ReActAgent.step`: plain text (user input,
accumulated thoughts) or the `{thought, action, result}` record of an
action. -/
inductive MemContent
  | text (s : String)
  | actionRec (thought : String) (action : AgentAction) (result : ActionResult)

/-- `ReActAgent._build_action` (react.py lines 124-131): the dict produced
by `_format_next_action` stores the tool parameters under the key
`"parameters"`, but `_build_action` reads the key `"input"`, which is
absent — so the built `Action` always carries an empty parameter dict;
`description` falls back to the name when empty (`… or …`). -/
def build_action (d : NextActionDict) : AgentAction :=
  ⟨d.id, d.name, some .nil, if d.description == "" then d.name else d.description, 0⟩

/-- `ReActAgent._build_messages` (react.py lines 119-156): replay the last
`step_count + 1` memory entries as a message list.  `json.dumps(asdict …)`
serialization is abstracted by the `serAct` / `serRes` parameters.
Entries whose content shape does not match their tag are skipped (Python
would raise there; no claim exercises that path). -/
def build_messages (serAct : AgentAction → String) (serRes : ActionResult → String)
    (mem : MemoryManager MemContent) (step_count : Nat) : List Message :=
  let hist := mem.recall none none (some (step_count + 1))
  hist.flatMap fun m =>
    match m.type, m.content with
    | "user", .text s => [⟨"user", some s, none, none⟩]
    | "thought", .text s => [⟨"assistant", some s, none, none⟩]
    | "action", .actionRec _ a r =>
        [⟨"assistant", none, some (serAct a), none⟩,
         ⟨"user", some (serRes r), none, some a.id⟩]
    | _, _ => []

/-- `ReActAgent.step` (react.py lines 49-117), consuming the thoughts the
think stream yields.  Content chunks accumulate into `thought_parts`; a
finished thought persists the joined parts (kind "thought") and yields a
finishing `StepResult` with `final_answer=None`; a thought with a next
action runs `act`, persists the `{thought, action, result}` record (kind
"action"), and yields the action notice with the replayed messages as
`next_input`; otherwise the chunk itself is yielded.  The step returns
right after a finishing or action result, so later thoughts are not
consumed. -/
def react_step (actF : AgentAction → ActionResult) (serAct : AgentAction → String)
    (serRes : ActionResult → String) (now : Nat) (step_count : Nat) :
    MemoryManager MemContent → List String → List Thought →
    List (StepResult AgentContext) × MemoryManager MemContent
  | mem, _, [] => ([], mem)
  | mem, parts, t :: rest =>
    let parts1 := if t.content == "" then parts else parts ++ [t.content]
    if t.finished then
      let mem1 := (mem.remember now (.text (String.join parts1)) "thought"
        (some [("step", toString step_count)])).2
      ([⟨some t.content, none, true, none⟩], mem1)
    else
      match t.next_action with
      | some na =>
        let action := build_action na
        let result := actF action
        let mem1 := (mem.remember now (.actionRec (String.join parts1) action result) "action"
          (some [("step", toString step_count)])).2
        let msgs := build_messages serAct serRes mem1 step_count
        ([⟨some ("\n[行动] " ++ action.name ++ "\n"), some (.messages msgs), false, none⟩], mem1)
      | none =>
        let pr := react_step actF serAct serRes now step_count mem parts1 rest
        (⟨some t.content, none, false, none⟩ :: pr.1, pr.2)

/-- The step function a `ToolCallAgent` hands to the executor: think on
the context (the model stream is the oracle `gen`), then run the ReAct
step over the yielded thoughts. -/
def toolCallStep (gen : AgentContext → List LLMResponse) (tools : List Tool)
    (serAct : AgentAction → String) (serRes : ActionResult → String) (now : Nat) :
    AgentContext → Nat → MemoryManager MemContent → StepGen AgentContext (MemoryManager MemContent) :=
  fun ctx sc mem =>
    let pr := react_step (act tools) serAct serRes now sc mem []
      (ToolCallAgent.think tools (gen ctx))
    ⟨pr.1, none, pr.2⟩

/-- `BaseAgent.run` (base/base.py lines 24-28): remember the input (kind
"user"), then drive the executor with the agent's step function.  A fresh
agent starts with a READY executor and an empty memory. -/
def BaseAgent.run (gen : AgentContext → List LLMResponse) (tools : List Tool)
    (serAct : AgentAction → String) (serRes : ActionResult → String) (now : Nat)
    (max_steps memory_limit : Nat) (input_text : String) :
    ExecRes (MemoryManager MemContent) :=
  let mem0 := MemoryManager.mk0 MemContent memory_limit
  let mem1 := (mem0.remember now (.text input_text) "user" none).2
  AgentExecutor.execute ⟨max_steps, 0, .ready⟩
    (toolCallStep gen tools serAct serRes now) (.text input_text) mem1

/-- A model that immediately answers "hi" with stop reason `end_turn`. -/
def endTurnGen : AgentContext → List LLMResponse := fun _ => [⟨"hi", "end_turn", none⟩]

/-- Stand-in for `json.dumps(asdict(action))`; not exercised by the
end-turn run. -/
def serActJson : AgentAction → String := fun a => a.name

/-- Stand-in for `json.dumps(asdict(result))`; not exercised by the
end-turn run. -/
def serResJson : ActionResult → String := fun r => if r.success then "ok" else "err"

/-- The run of spec scenario 1: input "hello" against `endTurnGen`. -/
def endTurnRun : ExecRes (MemoryManager MemContent) :=
  BaseAgent.run endTurnGen [] serActJson serResJson 0 10 1000 "hello"

/-! ## MCP client (src/agent/mcpHub/client.py) -/

/-- `McpConnection` (client.py lines 13-18): provider id, the resources
held by its `AsyncExitStack` in acquisition order, and whether
`exit_stack.aclose()` raises (carrying the message).  `aclose` releases
the stack's resources in reverse (LIFO) acquisition order. -/
structure McpConnection where
  server_id : String
  resources : List String
  closeExn : Option String
deriving DecidableEq, Repr

/-- `MCPClient.disconnect_all` (client.py lines 83-87): iterate over a
copy of the connection list in order; remove each connection, then await
`aclose()`.  There is no try/except around `aclose`, so a raising close
propagates immediately: the remaining connections are neither closed nor
removed.  Returns (released resources in release order, remaining
connection list, raised exception if any). -/
def disconnect_all : List McpConnection → List String × List McpConnection × Option String
  | [] => ([], [], none)
  | c :: rest =>
    match c.closeExn with
    | some e => (c.resources.reverse, rest, some e)
    | none =>
      let r := disconnect_all rest
      (c.resources.reverse ++ r.1, r.2.1, r.2.2)

/-- `MCPClient.get_connection` (client.py lines 47-52). -/
def get_connection (conns : List McpConnection) (server_id : String) : Option McpConnection :=
  conns.find? (fun c => c.server_id == server_id)

/-- `MCPClient.disconnect` (client.py lines 76-81): find the connection,
remove it, close its stack. -/
def disconnect (conns : List McpConnection) (server_id : String) :
    List String × List McpConnection × Option String :=
  match get_connection conns server_id with
  | none => ([], conns, none)
  | some c => (c.resources.reverse, conns.eraseP (fun x => x.server_id == server_id), c.closeExn)

/-- Two connections where the first one's close raises. -/
def cexConns : List McpConnection :=
  [⟨"a", ["ta1", "ta2"], some "boom"⟩, ⟨"b", ["tb"], none⟩]

/-! ## Large-change batch review (src/agent/custom/reviewer.py, lines 586-672) -/

/-- One unit of review work: a file's diff. -/
structure DiffContent where
  file_path : String
  content : String
deriving DecidableEq, Repr

/-- Python `[l[i:i+n] for i in range(0, len(l), n)]` as structural
recursion on a fuel bounded by the list length (the code only calls it
with `n = batch_size ≥ 1`). -/
def chunksAux {α : Type} (n : Nat) : Nat → List α → List (List α)
  | 0, _ => []
  | _, [] => []
  | fuel + 1, l => l.take n :: chunksAux n fuel (l.drop n)

/-- The batch partition `batches` of `_review_large_changes` (reviewer.py
lines 591-592): `ceil(N / batch_size)` chunks in order. -/
def chunks {α : Type} (n : Nat) (l : List α) : List (List α) :=
  chunksAux n l.length l

/-- The `combined_diff` string of `process_batch` (reviewer.py lines
602-605). -/
def combinedDiff (batch : List DiffContent) : String :=
  String.intercalate "\n"
    (batch.map (fun d => "// " ++ d.file_path ++ ":\n\n" ++ d.content ++ "\n"))

/-- The `batch_info` string of `process_batch` (reviewer.py line 608). -/
def batchInfo (batch_index total_batches numFiles : Nat) : String :=
  "第 " ++ toString (batch_index + 1) ++ "/" ++ toString total_batches ++
  " 批次，当前批次包含 " ++ toString numFiles ++ " 个文件"

/-- `process_batch` (reviewer.py lines 598-627): render the prompt
(`_render_review_prompt`, abstracted as `render code standard total_files
batch_info`; `is_batch` is always `True` here), collect the model's
output (`gen`, an exception modelled as `.error`), and return the result
labelled with the batch index; *any* exception is caught and turned into
the per-batch failure string at the same index, so a failing batch never
cancels its siblings. -/
def process_batch (gen : String → Except String String)
    (render : String → String → Nat → String → String) (standard : String)
    (total_files total_batches : Nat) (batch_index : Nat) (batch : List DiffContent) :
    Nat × String :=
  match gen (render (combinedDiff batch) standard total_files
      (batchInfo batch_index total_batches batch.length)) with
  | .ok s => (batch_index, s)
  | .error e => (batch_index, "批次 " ++ toString (batch_index + 1) ++ " 处理失败: " ++ e)

/-- The per-batch tasks in batch order: `process_batch(idx, batch)` for
each batch, indices counting from `start` (the code zips
`current_indices` with `current_batches`; concatenating the groups gives
exactly this list). -/
def canonWritesAux (pb : Nat → List DiffContent → Nat × String) :
    Nat → List (List DiffContent) → List (Nat × String)
  | _, [] => []
  | i, b :: rest => pb i b :: canonWritesAux pb (i + 1) rest

/-- All batch tasks, indexed from 0. -/
def canonWrites (pb : Nat → List DiffContent → Nat × String)
    (batches : List (List DiffContent)) : List (Nat × String) :=
  canonWritesAux pb 0 batches

/-- The concurrency grouping of reviewer.py lines 630-646: the tasks are
processed in groups of `min max_concurrent_batches total_batches`; groups
run sequentially, tasks inside a group concurrently. -/
def schedGroups (mcb : Nat) (ws : List (Nat × String)) : List (List (Nat × String)) :=
  chunks (min mcb ws.length) ws

/-- The pre-sized results array `all_results = [None] * total_batches`
after writing each completed task's result at its batch index (reviewer.py
lines 631, 649-656); `sched` is the order in which task results are
written back, i.e. the completion order. -/
def writeResults (tb : Nat) (sched : List (Nat × String)) : List (Option String) :=
  sched.foldl (fun arr p => arr.set p.1 (some p.2)) (List.replicate tb none)

/-- The final emission of `_review_large_changes` (reviewer.py lines
658-669): summary header, then each batch's slot strictly in index order
(a `None` slot would print the failure placeholder; the exception branch
of the gather loop is unreachable because `process_batch` catches). -/
def largeOutput (total_files tb : Nat) (arr : List (Option String)) : List String :=
  "# 📋 大型变更审查报告\n"
    :: ("总计 " ++ toString total_files ++ " 个文件，分 " ++ toString tb ++ " 个批次并行处理\n\n")
    :: (List.range tb).flatMap (fun i =>
        match arr.getD i none with
        | some r => ["## 批次 " ++ toString (i + 1) ++ " 审查结果\n", r ++ "\n", "\n---\n\n"]
        | none => ["## 批次 " ++ toString (i + 1) ++ " 处理失败\n\n"])

/-- `Reviewer._review_large_changes` (reviewer.py lines 586-672),
parameterized by the completion order `sched` of the batch tasks (any
permutation of the canonical task list, groups being awaited with
`asyncio.gather`). -/
def review_large_changes (gen : String → Except String String)
    (render : String → String → Nat → String → String) (standard : String)
    (diffs : List DiffContent) (batch_size : Nat) (sched : List (Nat × String)) :
    List String :=
  let batches := chunks batch_size diffs
  let tb := batches.length
  largeOutput diffs.length tb (writeResults tb sched)

/-- Witness model stream: fails exactly on the prompt of batch 2 of 3. -/
def wGen : String → Except String String :=
  fun p => if p = batchInfo 1 3 3 then .error "boom" else .ok ("OK " ++ p)

/-- Witness prompt renderer: the prompt is just the batch-info string. -/
def wRender : String → String → Nat → String → String :=
  fun _ _ _ info => info

/-- Seven diff units, reviewed with batch_size 3 → 3 batches. -/
def wDiffs : List DiffContent :=
  [⟨"f1", "c1"⟩, ⟨"f2", "c2"⟩, ⟨"f3", "c3"⟩, ⟨"f4", "c4"⟩,
   ⟨"f5", "c5"⟩, ⟨"f6", "c6"⟩, ⟨"f7", "c7"⟩]

/-! ### Executor lemmas -/

theorem execLoop_calls_le {Ctx σ : Type} (f : Ctx → Nat → σ → StepGen Ctx σ) :
    ∀ (fuel sc : Nat) (ctx : Ctx) (s : σ), (execLoop f fuel sc ctx s).calls ≤ fuel := by
  intro fuel
  induction fuel with
  | zero => intro sc ctx s; exact Nat.le_refl _
  | succ n ih =>
    intro sc ctx s
    rcases hpr : (processResults (f ctx (sc + 1) s).results ctx).2 with _ | e | ctx2
    · simp only [execLoop, hpr]
      omega
    · simp only [execLoop, hpr]
      omega
    · rcases hg : (f ctx (sc + 1) s).raised with _ | e
      · have h := ih (sc + 1) ctx2 (f ctx (sc + 1) s).st
        simp only [execLoop, hpr, hg]
        omega
      · simp only [execLoop, hpr, hg]
        omega

theorem execLoop_exhausted_stepCount {Ctx σ : Type} (f : Ctx → Nat → σ → StepGen Ctx σ) :
    ∀ (fuel sc : Nat) (ctx : Ctx) (s : σ),
      (execLoop f fuel sc ctx s).out = .exhausted →
      (execLoop f fuel sc ctx s).stepCount = sc + fuel := by
  intro fuel
  induction fuel with
  | zero => intro sc ctx s _; rfl
  | succ n ih =>
    intro sc ctx s h
    simp only [execLoop] at h ⊢
    split at h
    · exact absurd h (by simp_all)
    · exact absurd h (by simp_all)
    · split at h
      · exact absurd h (by simp_all)
      · have := ih (sc + 1) _ _ h
        simp only [this]
        omega

theorem execLoop_finished_stepCount {Ctx σ : Type} (f : Ctx → Nat → σ → StepGen Ctx σ) :
    ∀ (fuel sc : Nat) (ctx : Ctx) (s : σ),
      (execLoop f fuel sc ctx s).out = .finished →
      (execLoop f fuel sc ctx s).stepCount = 0 := by
  intro fuel
  induction fuel with
  | zero => intro sc ctx s h; exact absurd h (by simp [execLoop])
  | succ n ih =>
    intro sc ctx s h
    simp only [execLoop] at h ⊢
    split at h
    · rfl
    · exact absurd h (by simp_all)
    · split at h
      · exact absurd h (by simp_all)
      · exact ih (sc + 1) _ _ h

/-- C1: `AgentExecutor.execute` calls the step function at most `max_steps`
times; when the loop exhausts the step budget without a finishing result it
emits the step-limit guidance message as a normal output (outcome `.ok`,
not an exception) and resets `_step_count` to 0. -/
theorem executor_respects_step_limit {Ctx σ : Type} (f : Ctx → Nat → σ → StepGen Ctx σ)
    (ag : AgentExecutor) (ctx : Ctx) (s : σ)
    (hms : 1 ≤ ag.max_steps) (hst : ag.state = .ready ∨ ag.state = .running) :
    (execLoop f ag.max_steps 0 ctx s).calls ≤ ag.max_steps ∧
    ((execLoop f ag.max_steps 0 ctx s).out = .exhausted →
      (ag.execute f ctx s).outputs =
        (execLoop f ag.max_steps 0 ctx s).outputs ++ [maxStepsMsg ag.max_steps] ∧
      (ag.execute f ctx s).exec.step_count = 0 ∧
      (ag.execute f ctx s).out = .ok) := by
  refine ⟨execLoop_calls_le f _ _ _ _, fun hex => ?_⟩
  have hsc := execLoop_exhausted_stepCount f ag.max_steps 0 ctx s hex
  have hcond : ag.state = .running ∨ ag.state = .ready := hst.symm
  have hle : ag.max_steps ≤ (execLoop f ag.max_steps 0 ctx s).stepCount := by omega
  refine ⟨?_, ?_, ?_⟩ <;>
    simp [AgentExecutor.execute, if_pos hcond, hex, if_pos hle]

/-- Witness for C1: with a step function that never finishes and
`max_steps = 2`, the loop makes at most 2 calls and the output stream ends
with the step-limit guidance message, with the counter reset to 0. -/
theorem executor_respects_step_limit_witness :
    (execLoop stepNothing 2 0 "go" ()).calls ≤ 2 ∧
    (AgentExecutor.execute ⟨2, 0, .ready⟩ stepNothing "go" ()).outputs =
      (execLoop stepNothing 2 0 "go" ()).outputs ++ [maxStepsMsg 2] ∧
    (AgentExecutor.execute ⟨2, 0, .ready⟩ stepNothing "go" ()).exec.step_count = 0 ∧
    (AgentExecutor.execute ⟨2, 0, .ready⟩ stepNothing "go" ()).out = .ok := by
  have h := executor_respects_step_limit stepNothing ⟨2, 0, .ready⟩ "go" ()
    (by decide) (Or.inl rfl)
  exact ⟨h.1, h.2 rfl⟩

/-- From a RUNNING or READY state, `execute` never raises the invalid-state
`RuntimeError`. -/
theorem execute_out_ne_invalid {Ctx σ : Type} (f : Ctx → Nat → σ → StepGen Ctx σ)
    (ag : AgentExecutor) (ctx : Ctx) (s : σ)
    (hcond : ag.state = .running ∨ ag.state = .ready) :
    (ag.execute f ctx s).out ≠ .invalidState := by
  cases hout : (execLoop f ag.max_steps 0 ctx s).out with
  | finished => simp [AgentExecutor.execute, if_pos hcond, hout]
  | exhausted =>
    by_cases hle : ag.max_steps ≤ (execLoop f ag.max_steps 0 ctx s).stepCount
    · simp [AgentExecutor.execute, if_pos hcond, hout, if_pos hle]
    · simp [AgentExecutor.execute, if_pos hcond, hout, if_neg hle]
  | raised e => simp [AgentExecutor.execute, if_pos hcond, hout]

/-- C10: if `execute` terminates without an exception, the executor stays
RUNNING with `_step_count = 0`, so a further `execute` call is accepted
(the state never returns to READY); from the ERROR state, `execute` raises
the invalid-state `RuntimeError` immediately, changes nothing, and every
subsequent call does the same. -/
theorem executor_state_machine {Ctx σ Ctx2 σ2 : Type}
    (f : Ctx → Nat → σ → StepGen Ctx σ) (g : Ctx2 → Nat → σ2 → StepGen Ctx2 σ2)
    (ag : AgentExecutor) (ctx : Ctx) (s : σ) (ctx2 : Ctx2) (s2 : σ2) :
    ((ag.execute f ctx s).out = .ok →
      (ag.execute f ctx s).exec.state = .running ∧
      (ag.execute f ctx s).exec.step_count = 0 ∧
      ((ag.execute f ctx s).exec.execute g ctx2 s2).out ≠ .invalidState) ∧
    (ag.state = .error →
      ag.execute f ctx s = ⟨[], ag, s, .invalidState⟩ ∧
      ((ag.execute f ctx s).exec.execute g ctx2 s2).out = .invalidState) := by
  constructor
  · intro hok
    by_cases hcond : ag.state = .running ∨ ag.state = .ready
    · have hexec : (ag.execute f ctx s).exec = ⟨ag.max_steps, 0, .running⟩ := by
        cases hout : (execLoop f ag.max_steps 0 ctx s).out with
        | finished =>
          have hsc := execLoop_finished_stepCount f ag.max_steps 0 ctx s hout
          simp [AgentExecutor.execute, if_pos hcond, hout, hsc]
        | exhausted =>
          have hsc := execLoop_exhausted_stepCount f ag.max_steps 0 ctx s hout
          have hle : ag.max_steps ≤ (execLoop f ag.max_steps 0 ctx s).stepCount := by omega
          simp [AgentExecutor.execute, if_pos hcond, hout, if_pos hle]
        | raised e =>
          exact absurd hok (by simp [AgentExecutor.execute, if_pos hcond, hout])
      rw [hexec]
      exact ⟨rfl, rfl, execute_out_ne_invalid g _ ctx2 s2 (Or.inl rfl)⟩
    · exact absurd hok (by simp [AgentExecutor.execute, if_neg hcond])
  · intro herr
    have hcond : ¬ (ag.state = .running ∨ ag.state = .ready) := by
      rw [herr]; simp
    have h1 : ag.execute f ctx s = ⟨[], ag, s, .invalidState⟩ := by
      simp [AgentExecutor.execute, if_neg hcond]
    refine ⟨h1, ?_⟩
    rw [h1]
    simp [AgentExecutor.execute, if_neg hcond]

/-- Witness for C10: a finishing run from READY ends RUNNING with counter
0 and the next call is accepted; a call from ERROR raises invalid-state. -/
theorem executor_state_machine_witness :
    ((AgentExecutor.execute ⟨3, 0, .ready⟩ stepFinish "hello" ()).exec.state = .running ∧
      (AgentExecutor.execute ⟨3, 0, .ready⟩ stepFinish "hello" ()).exec.step_count = 0 ∧
      ((AgentExecutor.execute ⟨3, 0, .ready⟩ stepFinish "hello" ()).exec.execute
        stepFinish "again" ()).out ≠ .invalidState) ∧
    AgentExecutor.execute ⟨3, 0, .error⟩ stepFinish "hello" () = ⟨[], ⟨3, 0, .error⟩, (), .invalidState⟩ := by
  have h1 := (executor_state_machine stepFinish stepFinish ⟨3, 0, .ready⟩ "hello" () "again" ()).1 rfl
  have h2 := (executor_state_machine stepFinish stepFinish ⟨3, 0, .error⟩ "hello" () "again" ()).2 rfl
  exact ⟨h1, h2.1⟩

/-! ### Memory manager lemmas -/

theorem pyTailSlice_eq_rtake {α : Type} (k : Nat) (hk : k ≠ 0) (l : List α) :
    pyTailSlice k l = l.rtake k := by
  simp [pyTailSlice, List.rtake, hk]

theorem rtake_length_le {α : Type} (k : Nat) (l : List α) : (l.rtake k).length ≤ k := by
  simp only [List.rtake, List.length_drop]
  omega

theorem rtake_of_length_le {α : Type} (k : Nat) (l : List α) (h : l.length ≤ k) :
    l.rtake k = l := by
  simp [List.rtake, Nat.sub_eq_zero_of_le h]

theorem trim_rtake {α : Type} (limit : Nat) (hl : 1 ≤ limit)
    (log : List (AgentMemory α)) (e : AgentMemory α) :
    trim_memory limit (log.rtake limit ++ [e]) = (log ++ [e]).rtake limit := by
  by_cases hlen : log.length < limit
  · have h1 : log.rtake limit = log := rtake_of_length_le limit log (Nat.le_of_lt hlen)
    have h2 : (log ++ [e]).rtake limit = log ++ [e] :=
      rtake_of_length_le limit (log ++ [e]) (by simp; omega)
    rw [h1, h2, trim_memory, if_neg (by simp; omega)]
  · -- log has at least `limit` entries: the append overflows and is trimmed.
    have hlim : (log.rtake limit).length = limit := by
      simp only [List.rtake, List.length_drop]; omega
    obtain ⟨n, rfl⟩ : ∃ n, limit = n + 1 := ⟨limit - 1, by omega⟩
    rw [trim_memory, if_pos (by simp [hlim]), pyTailSlice_eq_rtake _ (by omega),
      List.rtake_concat_succ, List.rtake_concat_succ]
    congr 1
    simp only [List.rtake, List.length_drop, List.drop_drop]
    congr 1
    omega

theorem runMemOps_inv {α : Type} :
    ∀ (ops : List (MemOp α)) (m : MemoryManager α) (log : List (AgentMemory α)),
      1 ≤ m.memory_limit → m._memory = log.rtake m.memory_limit →
      ((runMemOps m log ops).1)._memory = ((runMemOps m log ops).2).rtake m.memory_limit ∧
      (runMemOps m log ops).1.memory_limit = m.memory_limit := by
  intro ops
  induction ops with
  | nil => intro m log hl hinv; exact ⟨hinv, rfl⟩
  | cons op rest ih =>
    intro m log hl hinv
    cases op with
    | rem now c ty meta =>
      have hmem : ((m.remember now c ty meta).2)._memory
          = (log ++ [m.mkEntry now c ty meta]).rtake m.memory_limit := by
        simp only [MemoryManager.remember]
        rw [hinv]
        exact trim_rtake m.memory_limit hl log _
      have := ih (m.remember now c ty meta).2 (log ++ [m.mkEntry now c ty meta])
        (by simpa [MemoryManager.remember] using hl) (by simpa [MemoryManager.remember] using hmem)
      simpa [runMemOps, MemoryManager.remember] using this
    | clear =>
      have := ih m.clear [] (by simpa [MemoryManager.clear] using hl)
        (by simp [MemoryManager.clear, List.rtake])
      simpa [runMemOps, MemoryManager.clear] using this

/-- C3: for any sequence of `remember`/`clear` calls on a store with
`memory_limit ≥ 1`, the entry list never exceeds the limit, and a plain
`recall()` returns exactly the last `memory_limit` entries created since
the last `clear`, in insertion order (trimming evicts oldest-first). -/
theorem memory_capacity_invariant {α : Type} (limit : Nat) (ops : List (MemOp α))
    (hl : 1 ≤ limit) :
    ((runMemOps (MemoryManager.mk0 α limit) [] ops).1)._memory.length ≤ limit ∧
    (runMemOps (MemoryManager.mk0 α limit) [] ops).1.recall none none none
      = ((runMemOps (MemoryManager.mk0 α limit) [] ops).2).rtake limit := by
  have h := runMemOps_inv ops (MemoryManager.mk0 α limit) []
    (by simpa [MemoryManager.mk0] using hl) (by simp [MemoryManager.mk0, List.rtake])
  have hrec : (runMemOps (MemoryManager.mk0 α limit) [] ops).1.recall none none none
      = ((runMemOps (MemoryManager.mk0 α limit) [] ops).1)._memory := rfl
  refine ⟨?_, ?_⟩
  · rw [h.1]
    exact rtake_length_le limit _
  · rw [hrec, h.1]
    rfl

/-- Witness for C3: limit 1, four mutations including a `clear`. -/
theorem memory_capacity_invariant_witness :
    ((runMemOps (MemoryManager.mk0 Nat 1) []
        [.rem 0 10 "a" none, .rem 1 11 "a" none, .clear, .rem 2 12 "b" none]).1)._memory.length ≤ 1 ∧
    (runMemOps (MemoryManager.mk0 Nat 1) []
        [.rem 0 10 "a" none, .rem 1 11 "a" none, .clear, .rem 2 12 "b" none]).1.recall none none none
      = ((runMemOps (MemoryManager.mk0 Nat 1) []
        [.rem 0 10 "a" none, .rem 1 11 "a" none, .clear, .rem 2 12 "b" none]).2).rtake 1 :=
  memory_capacity_invariant 1 _ (by decide)

/-- C6 counterexample: `recall(limit=0)` ignores the limit (Python `if
limit:` is false at 0) and returns the whole filtered list instead of the
last 0 entries, so the claim fails at `k = 0`. -/
theorem recall_limit_zero_counterexample :
    (cexMem.recall none none (some 0)).length = 2 ∧
    cexMem.recall none none (some 0) ≠ cexMem._memory.rtake 0 := by
  constructor
  · rfl
  · intro h
    have : (cexMem._memory.rtake 0).length = 2 := by rw [← h]; rfl
    simp [List.rtake] at this

/-- C6 (amended): for `k ≥ 1` (and filter strings that are not the empty
string, which Python truthiness would ignore), `recall` filters by exact
id, then by type, then returns exactly the last `k` entries of the
filtered result, or all of them when fewer than `k` match. -/
theorem recall_last_k_amended {α : Type} (m : MemoryManager α) (mid ty : Option String)
    (k : Nat) (hk : 1 ≤ k) (hmid : mid ≠ some "") (hty : ty ≠ some "") :
    m.recall mid ty (some k) =
      ((m._memory.filter (fun e => match mid with
          | some s => decide (e.id = s)
          | none => true)).filter (fun e => match ty with
          | some t => decide (e.type = t)
          | none => true)).rtake k := by
  have hk0 : k ≠ 0 := by omega
  cases mid with
  | none =>
    cases ty with
    | none => simp [MemoryManager.recall, hk0, pyTailSlice_eq_rtake k hk0]
    | some t =>
      have ht : t ≠ "" := fun h => hty (by rw [h])
      simp [MemoryManager.recall, hk0, ht, pyTailSlice_eq_rtake k hk0]
  | some s =>
    have hs : s ≠ "" := fun h => hmid (by rw [h])
    cases ty with
    | none => simp [MemoryManager.recall, hk0, hs, pyTailSlice_eq_rtake k hk0]
    | some t =>
      have ht : t ≠ "" := fun h => hty (by rw [h])
      simp [MemoryManager.recall, hk0, hs, ht, pyTailSlice_eq_rtake k hk0]

/-- Witness for C6 (amended) on the two-entry store with `k = 1`. -/
theorem recall_last_k_amended_witness :
    cexMem.recall none (some "default") (some 1) =
      ((cexMem._memory.filter (fun _ => true)).filter
        (fun e => decide (e.type = "default"))).rtake 1 ∧
    cexMem.recall none (some "default") (some 1) = [cexMem._memory.get ⟨1, by decide⟩] := by
  have h := recall_last_k_amended cexMem none (some "default") 1 (by decide)
    (by simp) (by simp)
  constructor
  · exact h
  · rw [h]; rfl

/-- The ids returned by consecutive `remember` calls, while the number of
entries ever stored stays within `memory_limit + 1`, count up from the
current length. -/
theorem runRemembers_ids {α : Type} :
    ∀ (args : List (Nat × α × String)) (m : MemoryManager α),
      m._memory.length + args.length ≤ m.memory_limit + 1 →
      (runRemembers m args).1
        = (List.range args.length).map (fun i => "mem_" ++ toString (m._memory.length + i)) := by
  intro args
  induction args with
  | nil => intro m _; rfl
  | cons x rest ih =>
    obtain ⟨now, c, ty⟩ := x
    intro m hlen
    cases rest with
    | nil =>
      simp [runRemembers, MemoryManager.remember, MemoryManager.mkEntry, List.range_succ]
    | cons y ys =>
      have hlt : m._memory.length < m.memory_limit := by
        simp at hlen; omega
      have hnotrim : trim_memory m.memory_limit (m._memory ++ [m.mkEntry now c ty none])
          = m._memory ++ [m.mkEntry now c ty none] := by
        rw [trim_memory, if_neg (by simp; omega)]
      have hm2 : (m.remember now c ty none).2
          = ⟨m.memory_limit, m._memory ++ [m.mkEntry now c ty none]⟩ := by
        simp [MemoryManager.remember, hnotrim]
      have hih := ih (m.remember now c ty none).2 (by rw [hm2]; simp; simp at hlen; omega)
      show (m.remember now c ty none).1
          :: (runRemembers (m.remember now c ty none).2 (y :: ys)).1 = _
      rw [hih, hm2]
      simp only [List.length_cons]
      conv_rhs => rw [List.range_succ_eq_map, List.map_cons, List.map_map]
      refine congrArg₂ List.cons ?_ ?_
      · simp [MemoryManager.remember, MemoryManager.mkEntry]
      · apply List.map_congr_left
        intro a _
        simp only [Function.comp_apply, List.length_append, List.length_cons, List.length_nil]
        congr 2
        omega

/-- C8 counterexample: with `memory_limit = 1`, the third `remember` call
returns the same id as the second (`"mem_1"`), because ids are derived
from the current length, which trimming holds at the limit. -/
theorem remember_id_reuse_counterexample :
    (runRemembers (MemoryManager.mk0 Nat 1) [(0, 10, "t"), (1, 11, "t"), (2, 12, "t")]).1
      = ["mem_0", "mem_1", "mem_1"] ∧
    ¬ (runRemembers (MemoryManager.mk0 Nat 1)
        [(0, 10, "t"), (1, 11, "t"), (2, 12, "t")]).1.Nodup := by
  refine ⟨rfl, by decide⟩

/-- C8 (amended): ids returned by `remember` are `mem_0, mem_1, …` in
order — monotonic and pairwise distinct — as long as at most
`memory_limit + 1` entries have been created, i.e. before trimming can
repeat a length; beyond that, ids repeat. -/
theorem remember_ids_fresh_amended {α : Type} (limit : Nat)
    (args : List (Nat × α × String)) (h : args.length ≤ limit + 1) :
    (runRemembers (MemoryManager.mk0 α limit) args).1
      = (List.range args.length).map (fun i => "mem_" ++ toString i) := by
  have := runRemembers_ids args (MemoryManager.mk0 α limit)
    (by simpa [MemoryManager.mk0] using h)
  simpa [MemoryManager.mk0] using this

/-- Witness for C8 (amended): limit 2, three calls give distinct ids. -/
theorem remember_ids_fresh_amended_witness :
    (runRemembers (MemoryManager.mk0 Nat 2) [(0, 10, "t"), (1, 11, "t"), (2, 12, "t")]).1
      = ["mem_0", "mem_1", "mem_2"] ∧
    (runRemembers (MemoryManager.mk0 Nat 2) [(0, 10, "t"), (1, 11, "t"), (2, 12, "t")]).1.Nodup := by
  have h := remember_ids_fresh_amended (α := Nat) 2 [(0, 10, "t"), (1, 11, "t"), (2, 12, "t")]
    (by decide)
  refine ⟨h.trans (by rfl), ?_⟩
  rw [h]
  decide

/-! ### Tool registry and invoker lemmas -/

theorem hasKeyRef_eq_false_of_spec : ∀ (fs : JFields),
    specRefFields fs = false → hasKeyRef fs = false
  | .nil, _ => rfl
  | .cons k v rest, h => by
    simp only [specRefFields, Bool.or_eq_false_iff] at h
    simp only [hasKeyRef, Bool.or_eq_false_iff]
    exact ⟨h.1.1, hasKeyRef_eq_false_of_spec rest h.2⟩

mutual
theorem check_of_spec_fields : ∀ (fs : JFields),
    specRefFields fs = false → check_ref_in_params fs = true
  | .nil, _ => rfl
  | .cons k v rest, h => by
    simp only [specRefFields, Bool.or_eq_false_iff] at h
    simp only [check_ref_in_params, Bool.and_eq_true]
    exact ⟨check_of_spec_value v h.1.2, check_of_spec_fields rest h.2⟩

theorem check_of_spec_value : ∀ (v : JVal),
    specRefValue v = false → checkRefValue v = true
  | .str _, _ => rfl
  | .num _, _ => rfl
  | .jbool _, _ => rfl
  | .null, _ => rfl
  | .obj fields, h => by
    simp only [specRefValue] at h
    simp only [checkRefValue, Bool.and_eq_true]
    refine ⟨?_, check_of_spec_fields fields h⟩
    rw [hasKeyRef_eq_false_of_spec fields h]
    rfl
  | .arr items, h => by
    simp only [specRefValue] at h
    simpa only [checkRefValue] using check_of_spec_items items h

theorem check_of_spec_items : ∀ (its : JItems),
    specRefItems its = false → checkRefList its = true
  | .nil, _ => rfl
  | .cons (.obj fs) rest, h => by
    simp only [specRefItems, specRefValue, Bool.or_eq_false_iff] at h
    simp only [checkRefList, Bool.and_eq_true]
    exact ⟨check_of_spec_fields fs h.1, check_of_spec_items rest h.2⟩
  | .cons (.str _) rest, h => by
    simp only [specRefItems, Bool.or_eq_false_iff] at h
    simp only [checkRefList, Bool.and_eq_true]
    exact ⟨trivial, check_of_spec_items rest h.2⟩
  | .cons (.num _) rest, h => by
    simp only [specRefItems, Bool.or_eq_false_iff] at h
    simp only [checkRefList, Bool.and_eq_true]
    exact ⟨trivial, check_of_spec_items rest h.2⟩
  | .cons (.jbool _) rest, h => by
    simp only [specRefItems, Bool.or_eq_false_iff] at h
    simp only [checkRefList, Bool.and_eq_true]
    exact ⟨trivial, check_of_spec_items rest h.2⟩
  | .cons .null rest, h => by
    simp only [specRefItems, Bool.or_eq_false_iff] at h
    simp only [checkRefList, Bool.and_eq_true]
    exact ⟨trivial, check_of_spec_items rest h.2⟩
  | .cons (.arr _) rest, h => by
    simp only [specRefItems, Bool.or_eq_false_iff] at h
    simp only [checkRefList, Bool.and_eq_true]
    exact ⟨trivial, check_of_spec_items rest h.2⟩
end

/-- C5 counterexample: a schema whose *top-level* key is `$ref` contains a
reference key in the spec's sense, yet `_validate_tool` accepts the tool
and registration keeps it in the active set — the walk only inspects the
keys of nested dict values, never those of the schema itself. -/
theorem validate_tool_top_level_ref_accepted :
    specRefFields topRefSchema = true ∧
    validate_tool topRefTool = true ∧
    (valid_tools [topRefTool]).map (fun t => t.name) = ["badtool"] := by
  refine ⟨by decide, by decide, by decide⟩

/-- C5 (amended): registration accepts every schema with no `$ref`
anywhere, and a tool the walk rejects is excluded from the active tool set
without raising; but detection only covers `$ref` keys of nested maps
(map values, and map items of sequences), not a `$ref` key at the top
level of the schema. -/
theorem validate_tool_ref_detection_amended (tools : List Tool) (t : Tool) :
    (specRefFields t.parameters = false → validate_tool t = true) ∧
    (validate_tool t = false → t ∉ valid_tools tools) := by
  constructor
  · intro h
    cases hp : t.parameters with
    | nil => simp [validate_tool, hp]
    | cons k v rest =>
      have hc := check_of_spec_fields (JFields.cons k v rest) (hp ▸ h)
      simp [validate_tool, hp, hc]
  · intro hval hmem
    have hmf := (List.mem_filter.mp (by simpa [valid_tools] using hmem)).2
    simp [hval] at hmf

/-- Witness for C5 (amended): a `$ref`-free schema is accepted; a tool
with a nested `$ref` is excluded from the registered set. -/
theorem validate_tool_ref_detection_amended_witness :
    validate_tool okTool = true ∧ nestedRefTool ∉ valid_tools [nestedRefTool, okTool] :=
  ⟨(validate_tool_ref_detection_amended [] okTool).1 (by decide),
   (validate_tool_ref_detection_amended [nestedRefTool, okTool] nestedRefTool).2 (by decide)⟩

theorem append_ne_empty_of_left (s t : String) (h : s ≠ "") : s ++ t ≠ "" := by
  intro he
  apply h
  apply String.ext
  have hd : (s ++ t).data = [] := by rw [he]
  rw [String.data_append] at hd
  exact List.append_eq_nil.mp hd |>.1

/-- C2: `ToolCallAgent.act` is total (never raises).  For an action whose
name is not registered it returns a failure `ActionResult` whose error
names the tool; when the handler raises, it returns a failure
`ActionResult` with a non-empty error carrying the exception message. -/
theorem act_never_raises_and_reports (tools : List Tool) (a : AgentAction) :
    (dictLookup tools a.name = none →
      act tools a = ⟨false, none, some ("未知工具: " ++ a.name)⟩) ∧
    (∀ (t : Tool) (e : String), dictLookup tools a.name = some t →
      t.func (a.parameters.getD .nil) = .error e →
      act tools a = ⟨false, none, some ("工具调用失败: " ++ e)⟩ ∧
      ∃ s, (act tools a).error = some s ∧ s ≠ "") := by
  constructor
  · intro h
    simp [act, h]
  · intro t e ht he
    refine ⟨by simp [act, ht, he], ?_⟩
    refine ⟨"工具调用失败: " ++ e, by simp [act, ht, he], ?_⟩
    exact append_ne_empty_of_left _ _ (by decide)

/-- Witness for C2: the unknown tool "foo", and a handler that raises. -/
theorem act_never_raises_and_reports_witness :
    act [] ⟨"a1", "foo", none, "", 0⟩ = ⟨false, none, some "未知工具: foo"⟩ ∧
    act [failTool] ⟨"a2", "boom", none, "", 0⟩ = ⟨false, none, some "工具调用失败: kaput"⟩ :=
  ⟨(act_never_raises_and_reports [] ⟨"a1", "foo", none, "", 0⟩).1 rfl,
   ((act_never_raises_and_reports [failTool] ⟨"a2", "boom", none, "", 0⟩).2 failTool "kaput" rfl rfl).1⟩

/-! ### ReAct run lemmas -/

/-- C7 counterexample: with a model that immediately answers "hi"
(`end_turn`), the run's output stream is exactly `["hi"]` — one chunk, no
trailing task-complete marker, because `ReActAgent.step` always yields
`final_answer=None` and the executor emits the marker only for a
non-empty `final_answer`. -/
theorem end_turn_run_no_marker_counterexample :
    endTurnRun.outputs = ["hi"] ∧
    endTurnRun.outputs.length = 1 ∧
    endTurnRun.outputs ≠ ["hi", "\n=== 任务完成 ===\n"] := by
  refine ⟨rfl, rfl, by decide⟩

/-- C7 (amended): the end-turn run yields exactly "hi" (no trailing
task-complete marker is emitted, since the finishing `StepResult` carries
no `final_answer`), completes normally, and leaves the agent with
`step_count = 0` in the RUNNING state, ready for the next `run`. -/
theorem end_turn_run_amended :
    endTurnRun.outputs = ["hi"] ∧
    endTurnRun.exec.step_count = 0 ∧
    endTurnRun.exec.state = .running ∧
    endTurnRun.out = .ok :=
  ⟨rfl, rfl, rfl, rfl⟩

/-! ### MCP client lemmas -/

/-- C9 counterexample: when closing the first connection raises, the
exception propagates out of `disconnect_all`: the second connection is
left in the list and its resource "tb" is never released — one bad
provider does block cleanup of the rest. -/
theorem disconnect_all_failure_counterexample :
    (disconnect_all cexConns).2.2 = some "boom" ∧
    (disconnect_all cexConns).2.1 = [⟨"b", ["tb"], none⟩] ∧
    "tb" ∉ (disconnect_all cexConns).1 := by
  refine ⟨rfl, rfl, by decide⟩

/-- C9 (amended): `disconnect_all` walks the connections in acquisition
(FIFO) order, releasing each connection's own resources in LIFO order;
when every close succeeds, all connections are released and the list is
emptied.  If some close raises, the exception propagates: the failing
connection has been removed and closed, but the connections after it are
neither closed nor removed. -/
theorem disconnect_all_amended (conns pre post : List McpConnection)
    (c : McpConnection) (e : String) :
    ((∀ x ∈ conns, x.closeExn = none) →
      disconnect_all conns = (conns.flatMap (fun x => x.resources.reverse), [], none)) ∧
    ((∀ x ∈ pre, x.closeExn = none) → c.closeExn = some e →
      disconnect_all (pre ++ c :: post)
        = (pre.flatMap (fun x => x.resources.reverse) ++ c.resources.reverse, post, some e)) := by
  constructor
  · intro h
    induction conns with
    | nil => rfl
    | cons x rest ih =>
      have hx : x.closeExn = none := h x (List.mem_cons_self x rest)
      have hrest := ih (fun y hy => h y (List.mem_cons_of_mem x hy))
      simp [disconnect_all, hx, hrest]
  · intro hpre hc
    induction pre with
    | nil =>
      simp [disconnect_all, hc]
    | cons p rest ih =>
      have hp : p.closeExn = none := hpre p (List.mem_cons_self p rest)
      have hrest := ih (fun y hy => hpre y (List.mem_cons_of_mem p hy))
      simp [disconnect_all, hp, hrest]

/-- Witness for C9 (amended): an all-successful pool is fully released in
FIFO-across / LIFO-within order; a pool with a failing middle connection
stops there. -/
theorem disconnect_all_amended_witness :
    disconnect_all [⟨"x", ["r1", "r2"], none⟩, ⟨"y", ["r3"], none⟩]
      = (["r2", "r1", "r3"], [], none) ∧
    disconnect_all [⟨"p", ["rp"], none⟩, ⟨"q", ["rq1", "rq2"], some "bad"⟩, ⟨"r", ["rr"], none⟩]
      = (["rp", "rq2", "rq1"], [⟨"r", ["rr"], none⟩], some "bad") := by
  constructor
  · have h := (disconnect_all_amended [⟨"x", ["r1", "r2"], none⟩, ⟨"y", ["r3"], none⟩]
      [] [] ⟨"", [], none⟩ "").1 (by decide)
    exact h.trans (by decide)
  · have h := (disconnect_all_amended [] [⟨"p", ["rp"], none⟩]
      [⟨"r", ["rr"], none⟩] ⟨"q", ["rq1", "rq2"], some "bad"⟩ "bad").2 (by decide) rfl
    exact h.trans (by decide)

/-! ### Batch orchestrator lemmas -/

theorem chunksAux_flatten {α : Type} (n : Nat) (hn : 1 ≤ n) :
    ∀ (fuel : Nat) (l : List α), l.length ≤ fuel → (chunksAux n fuel l).flatten = l := by
  intro fuel
  induction fuel with
  | zero =>
    intro l hl
    have : l = [] := List.eq_nil_of_length_eq_zero (by omega)
    subst this
    rfl
  | succ m ih =>
    intro l hl
    cases l with
    | nil => rfl
    | cons a rest =>
      simp only [chunksAux, List.flatten_cons]
      rw [ih ((a :: rest).drop n)
        (by rw [List.length_drop]; simp only [List.length_cons] at hl ⊢; omega)]
      exact List.take_append_drop n (a :: rest)

theorem canonWritesAux_map_fst (pb : Nat → List DiffContent → Nat × String)
    (hfst : ∀ i b, (pb i b).1 = i) :
    ∀ (bs : List (List DiffContent)) (start : Nat),
      (canonWritesAux pb start bs).map Prod.fst = List.range' start bs.length := by
  intro bs
  induction bs with
  | nil => intro start; rfl
  | cons b rest ih =>
    intro start
    simp only [canonWritesAux, List.map_cons, hfst, ih, List.length_cons]
    rfl

theorem foldlSet_perm :
    ∀ {ws1 ws2 : List (Nat × String)}, ws1.Perm ws2 →
      (ws1.map Prod.fst).Nodup →
      ∀ (arr : List (Option String)),
        ws1.foldl (fun a p => a.set p.1 (some p.2)) arr
          = ws2.foldl (fun a p => a.set p.1 (some p.2)) arr := by
  intro ws1 ws2 hp
  induction hp with
  | nil => intro _ _; rfl
  | cons x h ih =>
    intro hnd arr
    simp only [List.map_cons, List.nodup_cons] at hnd
    simp only [List.foldl_cons]
    exact ih hnd.2 _
  | swap x y l =>
    intro hnd arr
    simp only [List.map_cons, List.nodup_cons, List.mem_cons, not_or] at hnd
    simp only [List.foldl_cons]
    rw [List.set_comm _ _ _ hnd.1.1]
  | trans h1 h2 ih1 ih2 =>
    intro hnd arr
    rw [ih1 hnd arr, ih2 (((h1.map Prod.fst).nodup_iff).mp hnd) arr]

theorem foldl_canon (pb : Nat → List DiffContent → Nat × String)
    (hfst : ∀ i b, (pb i b).1 = i) :
    ∀ (bs : List (List DiffContent)) (start : Nat) (arr : List (Option String)) (i : Nat),
      start + bs.length ≤ arr.length →
      ((canonWritesAux pb start bs).foldl (fun a p => a.set p.1 (some p.2)) arr).getD i none
        = if start ≤ i ∧ i < start + bs.length
          then some ((pb i (bs.getD (i - start) [])).2)
          else arr.getD i none := by
  intro bs
  induction bs with
  | nil =>
    intro start arr i _
    simp only [canonWritesAux, List.foldl_nil, List.length_nil]
    rw [if_neg (by omega)]
  | cons b rest ih =>
    intro start arr i hlen
    simp only [canonWritesAux, List.foldl_cons, List.length_cons] at hlen ⊢
    rw [hfst start b]
    rw [ih (start + 1) (arr.set start (some (pb start b).2)) i
      (by simp only [List.length_set]; omega)]
    by_cases hin : start + 1 ≤ i ∧ i < start + 1 + rest.length
    · rw [if_pos hin, if_pos (by omega)]
      have hshift : i - start = (i - (start + 1)) + 1 := by omega
      rw [hshift, List.getD_cons_succ]
    · rw [if_neg hin]
      by_cases hieq : i = start
      · subst hieq
        rw [if_pos (by omega)]
        rw [List.getD_eq_getElem?_getD, List.getElem?_set, if_pos rfl, if_pos (by omega)]
        simp
      · have hno : ¬ (start ≤ i ∧ i < start + (rest.length + 1)) := fun hcon => by
          exact hin ⟨by omega, by omega⟩
        rw [if_neg hno]
        rw [List.getD_eq_getElem?_getD, List.getElem?_set,
          if_neg (fun h => hieq h.symm), ← List.getD_eq_getElem?_getD]

/-- C4: the large-change review's output is the summary header followed by
each batch's section strictly in increasing batch-index order, for *every*
completion order (any permutation of the batch task list); each section's
content depends only on its own batch, and a batch whose model call raises
contributes the per-batch failure string at its own index while the other
sections are unaffected. -/
theorem large_changes_ordered_output (gen : String → Except String String)
    (render : String → String → Nat → String → String) (standard : String)
    (diffs : List DiffContent) (batch_size mcb : Nat) (sched : List (Nat × String))
    (hbs : 1 ≤ batch_size) (hmcb : 1 ≤ mcb)
    (hperm : sched.Perm ((schedGroups mcb (canonWrites
      (process_batch gen render standard diffs.length (chunks batch_size diffs).length)
      (chunks batch_size diffs))).flatten)) :
    review_large_changes gen render standard diffs batch_size sched
      = "# 📋 大型变更审查报告\n"
        :: ("总计 " ++ toString diffs.length ++ " 个文件，分 "
            ++ toString (chunks batch_size diffs).length ++ " 个批次并行处理\n\n")
        :: (List.range (chunks batch_size diffs).length).flatMap (fun i =>
            ["## 批次 " ++ toString (i + 1) ++ " 审查结果\n",
             (process_batch gen render standard diffs.length (chunks batch_size diffs).length i
               ((chunks batch_size diffs).getD i [])).2 ++ "\n",
             "\n---\n\n"]) ∧
    (∀ (i : Nat) (e : String),
      gen (render (combinedDiff ((chunks batch_size diffs).getD i [])) standard diffs.length
          (batchInfo i (chunks batch_size diffs).length
            ((chunks batch_size diffs).getD i []).length)) = .error e →
      (process_batch gen render standard diffs.length (chunks batch_size diffs).length i
          ((chunks batch_size diffs).getD i [])).2
        = "批次 " ++ toString (i + 1) ++ " 处理失败: " ++ e) := by
  have hfst : ∀ i b, (process_batch gen render standard diffs.length
      (chunks batch_size diffs).length i b).1 = i := by
    intro i b
    cases hg : gen (render (combinedDiff b) standard diffs.length
        (batchInfo i (chunks batch_size diffs).length b.length)) with
    | ok s => simp [process_batch, hg]
    | error e => simp [process_batch, hg]
  constructor
  · have hjoin : (schedGroups mcb (canonWrites
        (process_batch gen render standard diffs.length (chunks batch_size diffs).length)
        (chunks batch_size diffs))).flatten
        = canonWrites (process_batch gen render standard diffs.length
            (chunks batch_size diffs).length) (chunks batch_size diffs) := by
      cases hcw : canonWrites (process_batch gen render standard diffs.length
          (chunks batch_size diffs).length) (chunks batch_size diffs) with
      | nil => rfl
      | cons w ws =>
        exact chunksAux_flatten _ (by simp [hcw]; omega) _ _ (Nat.le_refl _)
    have hperm2 : sched.Perm (canonWrites (process_batch gen render standard diffs.length
        (chunks batch_size diffs).length) (chunks batch_size diffs)) := by
      rw [← hjoin]; exact hperm
    have hnd : ((canonWrites (process_batch gen render standard diffs.length
        (chunks batch_size diffs).length) (chunks batch_size diffs)).map Prod.fst).Nodup := by
      rw [canonWrites, canonWritesAux_map_fst _ hfst]
      exact List.nodup_range' _ _ 1 (by decide)
    have harr : ∀ (i : Nat), i < (chunks batch_size diffs).length →
        (writeResults (chunks batch_size diffs).length sched).getD i none
          = some ((process_batch gen render standard diffs.length
              (chunks batch_size diffs).length i ((chunks batch_size diffs).getD i [])).2) := by
      intro i hi
      rw [writeResults,
        foldlSet_perm hperm2 (((hperm2.map Prod.fst).nodup_iff).mpr hnd) _,
        canonWrites,
        foldl_canon _ hfst (chunks batch_size diffs) 0
          (List.replicate (chunks batch_size diffs).length none) i (by simp),
        if_pos ⟨Nat.zero_le i, by omega⟩]
      simp
    show largeOutput diffs.length (chunks batch_size diffs).length
        (writeResults (chunks batch_size diffs).length sched) = _
    rw [largeOutput]
    refine congrArg _ (congrArg _ ?_)
    refine List.flatMap_congr (fun i hi => ?_)
    rw [harr i (List.mem_range.mp hi)]
  · intro i e hg
    simp only [process_batch]
    rw [hg]

/-- Witness for C4: spec scenario — 7 units, batch_size 3,
max_concurrent_batches 2 (3 batches), batch 2's model call fails, and the
tasks complete in reverse order; the output still lists batch 1's result,
batch 2's failure marker, batch 3's result, in that order. -/
theorem large_changes_ordered_output_witness :
    review_large_changes wGen wRender "std" wDiffs 3
        ((schedGroups 2 (canonWrites (process_batch wGen wRender "std" 7 3)
          (chunks 3 wDiffs))).flatten).reverse
      = "# 📋 大型变更审查报告\n"
        :: "总计 7 个文件，分 3 个批次并行处理\n\n"
        :: (List.range 3).flatMap (fun i =>
            ["## 批次 " ++ toString (i + 1) ++ " 审查结果\n",
             (process_batch wGen wRender "std" 7 3 i ((chunks 3 wDiffs).getD i [])).2 ++ "\n",
             "\n---\n\n"]) ∧
    (process_batch wGen wRender "std" 7 3 1 ((chunks 3 wDiffs).getD 1 [])).2
      = "批次 2 处理失败: boom" := by
  have h := large_changes_ordered_output wGen wRender "std" wDiffs 3 2
    ((schedGroups 2 (canonWrites (process_batch wGen wRender "std" 7 3)
      (chunks 3 wDiffs))).flatten).reverse
    (by decide) (by decide) (List.reverse_perm _)
  exact ⟨h.1, h.2 1 "boom" rfl⟩
